import Mathlib

/-!
Shallow embedding of `src/static_analysis/src/translator.cpp`, the
Translator core of the VPS static-analysis system: the fragments of
VEX IR the translator inspects, the terminator classifier
`get_terminator`, the block processor `process_block` with its
under-translation split and over-translation truncation,
`finalize_block` with the non-returning overlay, `detect_tail_jumps`
and the per-function driver `translate_function`.

The external VEX lifter together with the memory image is modelled as
an oracle `Vex : Nat → Nat → IRSB × Nat` mapping `(block_start,
instruction_count)` to the lifted super-block and `real_end` (the C++
call `_vex.translate((*_memory)[start], start, count, &real_end)`).
`deepCopyIRSB_Heap` is the identity in this value-semantics model.
The non-returning set `_dump_file.get_non_returning()` is a `List Nat`
parameter.  Addresses are `Nat`: the code only copies and compares
them, so no 64-bit overflow behaviour is involved.  The possibly
unbounded recursion of `process_block` is given explicit fuel;
`none` models a run that does not complete within the given fuel.
-/

/-- Tag of a VEX `IRConst` as far as the translator distinguishes it:
`Ico_U64` (the only tag it ever writes) versus anything else.  Reads
always go through the `Ico.U64` union member. -/
inductive IRConstTag
  | ico_u64
  | ico_other
deriving DecidableEq

/-- A VEX constant; the translator only reads and writes its 64-bit
union member `Ico.U64`. -/
structure IRConst where
  tag : IRConstTag
  u64 : Nat
deriving DecidableEq

/-- A VEX `next` expression: the translator only distinguishes
`Iex_Const` (with its constant) from every other expression tag. -/
inductive IRExpr
  | const (con : IRConst)
  | nonconst
deriving DecidableEq

/-- A VEX IR statement as far as the translator inspects it:
`Ist_IMark` carries the address and byte length of one machine
instruction, `Ist_Exit` carries its constant destination
(`Ist.Exit.dst->Ico.U64`); all other statement kinds are opaque. -/
inductive IRStmt
  | imark (addr len : Nat)
  | exit (dst : Nat)
  | other
deriving DecidableEq

/-- The VEX jump kinds consumed by the translator: `Ijk_Boring`,
`Ijk_Call`, `Ijk_Ret`, `Ijk_NoDecode`, and everything else. -/
inductive IRJumpKind
  | boring
  | call
  | ret
  | noDecode
  | otherJk
deriving DecidableEq

/-- A VEX IR super-block: ordered statements (the list holds exactly
the `stmts_used` first entries of the C array, so `stmts_used` is the
list length), the terminal `next` expression, and the jump-kind tag. -/
structure IRSB where
  stmts : List IRStmt
  next : IRExpr
  jumpkind : IRJumpKind
deriving DecidableEq

/-- The counting loop of `process_block` (translator.cpp:112-118):
number of `Ist_IMark` statements in a statement list. -/
def countIMarks : List IRStmt → Nat
  | [] => 0
  | IRStmt.imark _ _ :: rest => countIMarks rest + 1
  | _ :: rest => countIMarks rest

/-- Helper for stating the truncation property: `(index, address)` of
every `Ist_IMark` in the list, indices starting at `i`. -/
def imarkPositionsFrom (i : Nat) : List IRStmt → List (Nat × Nat)
  | [] => []
  | IRStmt.imark a _ :: rest => (i, a) :: imarkPositionsFrom (i + 1) rest
  | _ :: rest => imarkPositionsFrom (i + 1) rest

/-- `(index, address)` of every `Ist_IMark` of a statement list. -/
def imarkPositions (l : List IRStmt) : List (Nat × Nat) :=
  imarkPositionsFrom 0 l

/-- The `next`-rewrite of the truncation branch
(translator.cpp:149-161): if `next` is already `Iex_Const`, overwrite
the constant's `Ico.U64` in place (its tag is untouched); otherwise
allocate a fresh `Ico_U64` constant and re-tag `next` as `Iex_Const`
pointing at it. -/
def truncate_next (next : IRExpr) (addr : Nat) : IRExpr :=
  match next with
  | IRExpr.const c => IRExpr.const { c with u64 := addr }
  | IRExpr.nonconst => IRExpr.const ⟨IRConstTag.ico_u64, addr⟩

/-- The truncation loop of `process_block` (translator.cpp:139-166):
walk the statements with `instr_counter`; at the `Ist_IMark` that
drops the counter to zero, set the jump-kind to `Ijk_NoDecode`, cut
`stmts_used` down to that statement's index, and rewrite `next` to a
constant carrying that instruction's address.  `b` is the original
super-block, `i` the index of the head of the remaining list. -/
def truncate_loop (b : IRSB) (counter i : Nat) : List IRStmt → IRSB
  | [] => b
  | IRStmt.imark addr _ :: rest =>
    if counter - 1 = 0 then
      { stmts := b.stmts.take i
        next := truncate_next b.next addr
        jumpkind := IRJumpKind.noDecode }
    else truncate_loop b (counter - 1) (i + 1) rest
  | _ :: rest => truncate_loop b counter (i + 1) rest

/-- Over-translation truncation applied by `process_block` when
`head_instructions >= instruction_count`: the walk starts with
`instr_counter = instruction_count + 1` at index 0. -/
def truncate_block (instruction_count : Nat) (b : IRSB) : IRSB :=
  truncate_loop b (instruction_count + 1) 0 b.stmts

namespace Translator

/-- Terminator types (`TerminatorType` of translator.h, as used by
translator.cpp). -/
inductive TerminatorType
  | call
  | callUnresolved
  | jump
  | jcc
  | ret
  | fallthrough
  | noReturn
  | unresolved
deriving DecidableEq

/-- A block terminator: type, primary successor, sequential successor
and the tail flag written by `detect_tail_jumps`.  The C++ struct
leaves `is_tail` uninitialized in `get_terminator`; the model uses
`false`, which is sound because `detect_tail_jumps` overwrites the
flag of every block before any consumer reads it. -/
structure Terminator where
  type : TerminatorType
  target : Nat
  fall_through : Nat
  is_tail : Bool
deriving DecidableEq

/-- A catalog block descriptor (start, exclusive end — equal to start
means empty — and expected instruction count). -/
structure BlockDescriptor where
  block_start : Nat
  block_end : Nat
  instruction_count : Nat
deriving DecidableEq

/-- Modelled from the spec: a `Block` owned by its `Function` is
`(address, owning IR super-block, Terminator)` (§3 of the spec; the
`Block` class itself is declared outside the provided source). -/
structure Block where
  address : Nat
  irsb : IRSB
  terminator : Terminator
deriving DecidableEq

/-- Ordered-map insert (`std::map::operator[] =`-style) on an
association list: replace the binding if the key is present, append
otherwise. -/
def insertAssoc {β : Type} (k : Nat) (v : β) : List (Nat × β) → List (Nat × β)
  | [] => [(k, v)]
  | (k', v') :: rest =>
    if k = k' then (k, v) :: rest else (k', v') :: insertAssoc k v rest

/-- Ordered-map lookup (`std::map::find`-style) on an association
list. -/
def lookupAssoc {β : Type} (k : Nat) : List (Nat × β) → Option β
  | [] => none
  | (k', v') :: rest => if k = k' then some v' else lookupAssoc k rest

/-- Ordered-map erase (`std::map::erase`-style) on an association
list. -/
def eraseAssoc {β : Type} (k : Nat) : List (Nat × β) → List (Nat × β)
  | [] => []
  | (k', v') :: rest =>
    if k = k' then eraseAssoc k rest else (k', v') :: eraseAssoc k rest

/-- Modelled from the spec: a `Function` is its entry address, a
mapping block-address → `Block`, and the finalized flag (§3; xref sets
are omitted — no inspected code reads them).  The class itself is
declared outside the provided source. -/
structure Function where
  entry : Nat
  blocks : List (Nat × Block)
  finalized : Bool
deriving DecidableEq

/-- Modelled from the spec: `Function::add_block` attaches
`Block(address, ir, terminator)` under key `address` (§4.1: "Attach
`Block(descriptor.block_start, owned IR, terminator)` to the
function"). -/
def Function.add_block (f : Function) (a : Nat) (ir : IRSB) (t : Terminator) :
    Function :=
  { f with blocks := insertAssoc a ⟨a, ir, t⟩ f.blocks }

/-- Modelled from the spec: `Function::finalize` freezes the block
map (§4.3 step 3). -/
def Function.finalize (f : Function) : Function :=
  { f with finalized := true }

/-- The Translator registry state: `_functions`, `_blocks` and
`_seen_blocks`. -/
structure TState where
  functions : List (Nat × Function)
  blocks : List (Nat × IRSB)
  seen : List Nat
deriving DecidableEq

/-- The external lifter (plus memory image) oracle:
`vex block_start instruction_count = (lifted IR super-block, real_end)`. -/
abbrev Vex : Type := Nat → Nat → IRSB × Nat

/-- Reverse scan for the last `Ist_IMark` of a super-block
(translator.cpp:343-351), returning its `(addr, len)`. -/
def lastIMarkOf (b : IRSB) : Option (Nat × Nat) :=
  b.stmts.reverse.findSome? fun s =>
    match s with
    | IRStmt.imark a l => some (a, l)
    | _ => none

/-- `result.fall_through` as initialized from the last instruction
mark (translator.cpp:353-357): `mark.addr + mark.len`, or 0 when the
block has no mark. -/
def fallThroughOf (b : IRSB) : Nat :=
  match lastIMarkOf b with
  | some (a, l) => a + l
  | none => 0

/-- `last_addr` of the classifier (translator.cpp:353-357): address of
the last instruction mark, or 0 when there is none. -/
def lastAddrOf (b : IRSB) : Nat :=
  match lastIMarkOf b with
  | some (a, _) => a
  | none => 0

/-- `jmp_call_target` (translator.cpp:362-370): the `Ico.U64` of the
`next` expression when it is `Iex_Const`, else 0. -/
def jmpCallTargetOf (b : IRSB) : Nat :=
  match b.next with
  | IRExpr.const c => c.u64
  | IRExpr.nonconst => 0

/-- The conditional-exit scan of `get_terminator`
(translator.cpp:380-415): walk the statements in reverse while
`jcc_target` is 0, stopping at the last `Ist_IMark`; on an `Ist_Exit`
take its destination, set `is_conditional`, then apply the two
corrections in order (degenerate target equal to both
`jmp_call_target` and the fall-through is dropped; an intra-block
target in `(block_start, last_addr]` is dropped together with
`is_conditional`).  The list argument is the reversed statement list;
the state is `(jcc_target, is_conditional)`. -/
def scanExits (bs la ft jct : Nat) : List IRStmt → Nat × Bool → Nat × Bool
  | [], st => st
  | stmt :: rest, (jcc, cond) =>
    if jcc ≠ 0 then (jcc, cond)
    else
      match stmt with
      | IRStmt.imark _ _ => (jcc, cond)
      | IRStmt.exit dst =>
        let j := if dst = jct ∧ ft = dst then 0 else dst
        if bs < j ∧ j ≤ la then scanExits bs la ft jct rest (0, false)
        else scanExits bs la ft jct rest (j, true)
      | IRStmt.other => scanExits bs la ft jct rest (jcc, cond)

/-- `(jcc_target, is_conditional)` of a super-block after the exit
scan. -/
def exitScanOf (b : IRSB) (bs : Nat) : Nat × Bool :=
  scanExits bs (lastAddrOf b) (fallThroughOf b) (jmpCallTargetOf b)
    b.stmts.reverse (0, false)

/-- The signal-fusion step of `get_terminator`
(translator.cpp:375-378 and 421-425): `is_jmp_call` is true exactly
when the fall-through differs from `jmp_call_target`; when the scan
left `is_conditional` set, `is_jmp_call` holds and `jcc_target` equals
the fall-through, `jcc_target` is re-assigned to `jmp_call_target`. -/
def fusedJccOf (b : IRSB) (bs : Nat) : Nat :=
  let scanned := exitScanOf b bs
  if scanned.2 = true ∧ fallThroughOf b ≠ jmpCallTargetOf b ∧
      scanned.1 = fallThroughOf b then
    jmpCallTargetOf b
  else scanned.1

/-- The terminator classifier `Translator::get_terminator`
(translator.cpp:334-494): dispatch on the jump kind using the
fall-through, `jmp_call_target` and the fused `jcc_target`. -/
def get_terminator (b : IRSB) (block_start : Nat) : Terminator :=
  match b.jumpkind with
  | IRJumpKind.noDecode =>
    ⟨TerminatorType.fallthrough, 0, jmpCallTargetOf b, false⟩
  | IRJumpKind.ret =>
    ⟨TerminatorType.ret, 0, 0, false⟩
  | IRJumpKind.call =>
    if jmpCallTargetOf b ≠ 0 then
      ⟨TerminatorType.call, jmpCallTargetOf b, fallThroughOf b, false⟩
    else
      ⟨TerminatorType.callUnresolved, 0, fallThroughOf b, false⟩
  | IRJumpKind.boring =>
    if fusedJccOf b block_start ≠ 0 then
      ⟨TerminatorType.jcc, fusedJccOf b block_start, fallThroughOf b, false⟩
    else if jmpCallTargetOf b = lastAddrOf b then
      ⟨TerminatorType.fallthrough, 0, fallThroughOf b, false⟩
    else if jmpCallTargetOf b = fallThroughOf b then
      ⟨TerminatorType.jump, jmpCallTargetOf b, 0, false⟩
    else if jmpCallTargetOf b ≠ 0 then
      ⟨TerminatorType.jump, jmpCallTargetOf b, 0, false⟩
    else
      ⟨TerminatorType.unresolved, 0, 0, false⟩
  | IRJumpKind.otherJk =>
    ⟨TerminatorType.unresolved, 0, 0, false⟩

/-- The non-returning overlay of `Translator::finalize_block`
(translator.cpp:55-67): a `Call` or `Jump` terminator whose target is
in the non-returning set is promoted to `NoReturn`; every other
terminator is left unchanged. -/
def promote_noreturn (nonret : List Nat) (t : Terminator) : Terminator :=
  match t.type with
  | TerminatorType.call =>
    if t.target ∈ nonret then { t with type := TerminatorType.noReturn } else t
  | TerminatorType.jump =>
    if t.target ∈ nonret then { t with type := TerminatorType.noReturn } else t
  | _ => t

/-- `Translator::finalize_block` (translator.cpp:47-71): classify the
owned super-block, apply the non-returning overlay, attach the block
to the function and record the super-block in the global `_blocks`
map.  The C++ mutates `function` and `_blocks` in place; the model
returns the updated registry state and function. -/
def finalize_block (nonret : List Nat) (s : TState) (f : Function)
    (block : BlockDescriptor) (block_pointer : IRSB) : TState × Function :=
  let terminator :=
    promote_noreturn nonret (get_terminator block_pointer block.block_start)
  ({ s with blocks := insertAssoc block.block_start block_pointer s.blocks },
   f.add_block block.block_start block_pointer terminator)

/-- `Translator::process_block` (translator.cpp:73-170): empty and
already-seen descriptors succeed as no-ops; otherwise the lifter is
driven, `block_start` is recorded in `_seen_blocks`, and either the
under-translation split recurses on
`(real_end, block_end, instruction_count - head_instructions)` before
finalizing the head as-is, or the over-translation truncation rewrites
the owned block before finalizing.  The recursion depth is bounded by
explicit fuel; `none` models a run exceeding it.  `deepCopyIRSB_Heap`
is the identity here, so the owned block is the oracle's block. -/
def process_block (vex : Vex) (nonret : List Nat) :
    Nat → TState → Function → BlockDescriptor →
    Option (TState × Function × Bool)
  | 0, _, _, _ => none
  | fuel + 1, s, f, block =>
    if block.block_start = block.block_end then some (s, f, true)
    else if block.block_start ∈ s.seen then some (s, f, true)
    else
      if countIMarks (vex block.block_start block.instruction_count).1.stmts <
          block.instruction_count then
        match process_block vex nonret fuel
            { s with seen := block.block_start :: s.seen } f
            ⟨(vex block.block_start block.instruction_count).2,
              block.block_end,
              block.instruction_count -
                countIMarks (vex block.block_start block.instruction_count).1.stmts⟩
          with
        | none => none
        | some (s2, f2, r) =>
          some ((finalize_block nonret s2 f2 block
              (vex block.block_start block.instruction_count).1).1,
            (finalize_block nonret s2 f2 block
              (vex block.block_start block.instruction_count).1).2,
            true && r)
      else
        some ((finalize_block nonret
            { s with seen := block.block_start :: s.seen } f block
            (truncate_block block.instruction_count
              (vex block.block_start block.instruction_count).1)).1,
          (finalize_block nonret
            { s with seen := block.block_start :: s.seen } f block
            (truncate_block block.instruction_count
              (vex block.block_start block.instruction_count).1)).2,
          true)

/-- The per-block body of `Translator::detect_tail_jumps`
(translator.cpp:177-206): clear `is_tail`, and for a `Jump`
terminator set it exactly when no block of the function has the
target as its address. -/
def tail_update (blocks : List (Nat × Block)) (t0 : Terminator) : Terminator :=
  let t := { t0 with is_tail := false }
  match t.type with
  | TerminatorType.jump =>
    { t with is_tail := !(blocks.any fun i => i.2.address == t.target) }
  | _ => t

/-- `Translator::detect_tail_jumps` (translator.cpp:172-208): revisit
every terminator of the function.  The C++ mutates terminators in
place while iterating; since only `is_tail` is written and only
addresses are read, mapping over the original block list is
equivalent. -/
def detect_tail_jumps (f : Function) : Function :=
  { f with
    blocks := f.blocks.map fun kv =>
      (kv.1, { kv.2 with terminator := tail_update f.blocks kv.2.terminator }) }

/-- The block loop of `Translator::translate_function`
(translator.cpp:219-228): process the descriptors in catalog order; a
`false` from `process_block` erases the function from the registry and
yields a null handle; otherwise tail jumps are detected, the function
is finalized and written back to the registry.  The C++ builds the
function in place inside `_functions`; the model threads it and writes
the finished value back, which agrees with the source at every point
where the registry is observed. -/
def translate_blocks (vex : Vex) (nonret : List Nat) (fuel address : Nat) :
    TState → Function → List BlockDescriptor →
    Option (TState × Option Function)
  | s, f, [] =>
    let finished := Function.finalize (detect_tail_jumps f)
    some ({ s with functions := insertAssoc address finished s.functions },
      some finished)
  | s, f, block :: rest =>
    match process_block vex nonret fuel s f block with
    | none => none
    | some (s2, f2, r) =>
      if r then translate_blocks vex nonret fuel address s2 f2 rest
      else some ({ s2 with functions := eraseAssoc address s2.functions }, none)

/-- `Translator::translate_function` (translator.cpp:210-229): create
a fresh `Function` at the entry address in the registry, then run the
block loop. -/
def translate_function (vex : Vex) (nonret : List Nat) (fuel : Nat)
    (s : TState) (address : Nat) (blocks : List BlockDescriptor) :
    Option (TState × Option Function) :=
  translate_blocks vex nonret fuel address
    { s with functions :=
        insertAssoc address (Function.mk address [] false) s.functions }
    (Function.mk address [] false) blocks

/-- The public registry entry points of `Translator`
(translator.cpp:258-541). -/
inductive TranslatorPublicOp
  | get_function
  | cget_function
  | maybe_get_function
  | get_functions_mutable
  | add_function_xref
  | add_function_vfunc_xref
  | get_containing_function
deriving DecidableEq

/-- Transcribed from the source: which public registry operations
construct `lock_guard<mutex>(_mutex)` on entry.  `get_function`
(line 259), `cget_function` (line 284), `maybe_get_function`
(line 310), `get_functions_mutable` (line 316), `add_function_xref`
(line 514) and `add_function_vfunc_xref` (line 530) each take the
lock; `get_containing_function` (lines 500-511) scans `_functions`
without acquiring the mutex. -/
def acquires_mutex : TranslatorPublicOp → Bool
  | TranslatorPublicOp.get_function => true
  | TranslatorPublicOp.cget_function => true
  | TranslatorPublicOp.maybe_get_function => true
  | TranslatorPublicOp.get_functions_mutable => true
  | TranslatorPublicOp.add_function_xref => true
  | TranslatorPublicOp.add_function_vfunc_xref => true
  | TranslatorPublicOp.get_containing_function => false

/-! ### Association-list lemmas -/

theorem lookupAssoc_insertAssoc_self {β : Type} (k : Nat) (v : β)
    (m : List (Nat × β)) : lookupAssoc k (insertAssoc k v m) = some v := by
  induction m with
  | nil => simp [insertAssoc, lookupAssoc]
  | cons kv rest ih =>
    rcases kv with ⟨k', v'⟩
    by_cases h : k = k' <;> simp [insertAssoc, lookupAssoc, h, ih]

theorem lookupAssoc_insertAssoc_ne {β : Type} (k k' : Nat) (v : β)
    (m : List (Nat × β)) (h : k ≠ k') :
    lookupAssoc k (insertAssoc k' v m) = lookupAssoc k m := by
  induction m with
  | nil => simp [insertAssoc, lookupAssoc, h]
  | cons kv rest ih =>
    rcases kv with ⟨k'', v''⟩
    by_cases h1 : k' = k'' <;> by_cases h2 : k = k'' <;>
      simp_all [insertAssoc, lookupAssoc]

theorem lookupAssoc_eraseAssoc_self {β : Type} (k : Nat) (m : List (Nat × β)) :
    lookupAssoc k (eraseAssoc k m) = none := by
  induction m with
  | nil => simp [eraseAssoc, lookupAssoc]
  | cons kv rest ih =>
    rcases kv with ⟨k', v'⟩
    by_cases h : k = k'
    · subst h; simpa [eraseAssoc] using ih
    · simp [eraseAssoc, lookupAssoc, h, ih]

theorem lookupAssoc_map_none {β γ : Type} (k : Nat) (g : Nat × β → γ)
    (m : List (Nat × β)) (h : lookupAssoc k m = none) :
    lookupAssoc k (m.map fun kv => (kv.1, g kv)) = none := by
  induction m with
  | nil => simp [lookupAssoc]
  | cons kv rest ih =>
    rcases kv with ⟨k', v'⟩
    by_cases h1 : k = k' <;> simp_all [lookupAssoc]

/-! ### The truncation loop, characterized -/

theorem truncate_loop_spec (l : List IRStmt) : ∀ (b : IRSB) (d i : Nat),
    truncate_loop b (d + 1) i l =
      if d + 1 ≤ countIMarks l then
        { stmts := b.stmts.take (((imarkPositionsFrom i l).getD d (0, 0)).1)
          next := truncate_next b.next (((imarkPositionsFrom i l).getD d (0, 0)).2)
          jumpkind := IRJumpKind.noDecode }
      else b := by
  induction l with
  | nil =>
    intro b d i
    simp [truncate_loop, countIMarks]
  | cons hd tl ih =>
    intro b d i
    cases hd with
    | imark a len =>
      cases d with
      | zero =>
        simp [truncate_loop, countIMarks, imarkPositionsFrom]
      | succ e =>
        have hstep : truncate_loop b (e + 1 + 1) i (IRStmt.imark a len :: tl) =
            truncate_loop b (e + 1) (i + 1) tl := by
          simp [truncate_loop]
        rw [hstep, ih b e (i + 1)]
        simp only [countIMarks, imarkPositionsFrom, List.getD_cons_succ]
        by_cases hcc : e + 1 ≤ countIMarks tl <;>
          simp [hcc, Nat.succ_le_succ_iff]
    | exit dst =>
      have hstep : truncate_loop b (d + 1) i (IRStmt.exit dst :: tl) =
          truncate_loop b (d + 1) (i + 1) tl := by
        simp [truncate_loop]
      rw [hstep, ih b d (i + 1)]
      simp only [countIMarks, imarkPositionsFrom]
    | other =>
      have hstep : truncate_loop b (d + 1) i (IRStmt.other :: tl) =
          truncate_loop b (d + 1) (i + 1) tl := by
        simp [truncate_loop]
      rw [hstep, ih b d (i + 1)]
      simp only [countIMarks, imarkPositionsFrom]

/-- C4 (confirmed): when the owned IR contains at least
`instruction_count + 1` instruction marks, the truncation applied by
`process_block` in its over-translation branch sets the jump-kind to
`NoDecode`, cuts the statement count down to the index of the
`(instruction_count + 1)`-th `InstructionMark`, and turns `next` into a
constant carrying that mark's address (overwriting the constant's
64-bit value in place when `next` already is one, allocating a fresh
`Ico_U64` constant otherwise); with at most `instruction_count` marks
(in particular exactly `instruction_count`) the IR is left
unmodified. -/
theorem C4_truncation (b : IRSB) (instruction_count : Nat) :
    truncate_block instruction_count b =
      if instruction_count + 1 ≤ countIMarks b.stmts then
        { stmts :=
            b.stmts.take
              (((imarkPositions b.stmts).getD instruction_count (0, 0)).1)
          next :=
            match b.next with
            | IRExpr.const c =>
              IRExpr.const
                ⟨c.tag, ((imarkPositions b.stmts).getD instruction_count (0, 0)).2⟩
            | IRExpr.nonconst =>
              IRExpr.const
                ⟨IRConstTag.ico_u64,
                  ((imarkPositions b.stmts).getD instruction_count (0, 0)).2⟩
          jumpkind := IRJumpKind.noDecode }
      else b := by
  rw [truncate_block, truncate_loop_spec b.stmts b instruction_count 0]
  rcases b with ⟨st, nx, jk⟩
  cases nx <;> rfl

/-! ### The classifier never emits NoReturn; the overlay -/

theorem get_terminator_type_not_noreturn (b : IRSB) (block_start : Nat) :
    (get_terminator b block_start).type ≠ TerminatorType.noReturn := by
  rcases b with ⟨st, nx, jk⟩
  cases jk <;> simp only [get_terminator] <;> (try split_ifs) <;> simp

theorem promote_noreturn_spec (nonret : List Nat) (t : Terminator)
    (h : t.type ≠ TerminatorType.noReturn) :
    promote_noreturn nonret t =
      (if (t.type = TerminatorType.call ∨ t.type = TerminatorType.jump) ∧
          t.target ∈ nonret
       then { t with type := TerminatorType.noReturn } else t) ∧
    ((promote_noreturn nonret t).type = TerminatorType.noReturn ↔
      (t.type = TerminatorType.call ∨ t.type = TerminatorType.jump) ∧
        t.target ∈ nonret) := by
  rcases t with ⟨ty, tg, ft, tl⟩
  simp only [] at h
  cases ty <;> simp_all [promote_noreturn] <;> split_ifs <;> simp_all

/-- C6 (confirmed): `finalize_block` promotes the classified
terminator to `NoReturn` exactly when its type is `Call` or `Jump` and
its target is in the non-returning set; every other terminator is
attached unchanged, and a `NoReturn` terminator can only arise from a
`Call`/`Jump` whose target was in the set at classification time
(`get_terminator` itself never emits `NoReturn`). -/
theorem C6_noreturn_promotion (b : IRSB) (block_start : Nat)
    (nonret : List Nat) :
    promote_noreturn nonret (get_terminator b block_start) =
      (if ((get_terminator b block_start).type = TerminatorType.call ∨
            (get_terminator b block_start).type = TerminatorType.jump) ∧
          (get_terminator b block_start).target ∈ nonret
       then { get_terminator b block_start with type := TerminatorType.noReturn }
       else get_terminator b block_start) ∧
    ((promote_noreturn nonret (get_terminator b block_start)).type =
        TerminatorType.noReturn ↔
      ((get_terminator b block_start).type = TerminatorType.call ∨
        (get_terminator b block_start).type = TerminatorType.jump) ∧
        (get_terminator b block_start).target ∈ nonret) :=
  promote_noreturn_spec nonret (get_terminator b block_start)
    (get_terminator_type_not_noreturn b block_start)

/-- C9 (code_bug): `get_containing_function` performs its registry
lookup without acquiring the Translator's mutex, so not every public
registry operation is serialized by the lock as the specification
requires. -/
theorem C9_unlocked_lookup :
    acquires_mutex TranslatorPublicOp.get_containing_function = false ∧
    ¬ ∀ op : TranslatorPublicOp, acquires_mutex op = true := by
  refine ⟨rfl, fun hall => ?_⟩
  have h := hall TranslatorPublicOp.get_containing_function
  simp [acquires_mutex] at h

/-! ### Soundness of the conditional-exit scan -/

/-- A nonzero `jcc_target` surviving the exit scan carries
`is_conditional` and has passed both corrections: it is not the
degenerate target equal to both `jmp_call_target` and the
fall-through, and it does not lie in `(block_start, last_addr]`. -/
theorem scanExits_sound (bs la ft jct : Nat) (l : List IRStmt) :
    ∀ st : Nat × Bool,
      (st.1 ≠ 0 →
        st.2 = true ∧ ¬(st.1 = jct ∧ ft = st.1) ∧ ¬(bs < st.1 ∧ st.1 ≤ la)) →
      (scanExits bs la ft jct l st).1 ≠ 0 →
      (scanExits bs la ft jct l st).2 = true ∧
        ¬((scanExits bs la ft jct l st).1 = jct ∧
            ft = (scanExits bs la ft jct l st).1) ∧
        ¬(bs < (scanExits bs la ft jct l st).1 ∧
            (scanExits bs la ft jct l st).1 ≤ la) := by
  induction l with
  | nil =>
    intro st h
    simpa [scanExits] using h
  | cons hd tl ih =>
    intro st h
    rcases st with ⟨jcc, cond⟩
    by_cases hj : jcc ≠ 0
    · simpa [scanExits, hj] using h hj
    · push_neg at hj
      subst hj
      cases hd with
      | imark a len =>
        intro hne
        simp [scanExits] at hne
      | exit dst =>
        by_cases hdeg : dst = jct ∧ ft = dst
        · have hred : scanExits bs la ft jct (IRStmt.exit dst :: tl) (0, cond) =
              scanExits bs la ft jct tl (0, true) := by
            simp [scanExits, hdeg]
          rw [hred]
          exact ih (0, true) (by simp)
        · by_cases hrange : bs < dst ∧ dst ≤ la
          · have hred : scanExits bs la ft jct (IRStmt.exit dst :: tl) (0, cond) =
                scanExits bs la ft jct tl (0, false) := by
              simp [scanExits, hdeg, hrange]
            rw [hred]
            exact ih (0, false) (by simp)
          · have hred : scanExits bs la ft jct (IRStmt.exit dst :: tl) (0, cond) =
                scanExits bs la ft jct tl (dst, true) := by
              simp [scanExits, hdeg, hrange]
            rw [hred]
            refine ih (dst, true) ?_
            intro hne
            exact ⟨rfl, hdeg, hrange⟩
      | other =>
        have hred : scanExits bs la ft jct (IRStmt.other :: tl) (0, cond) =
            scanExits bs la ft jct tl (0, cond) := by
          simp [scanExits]
        rw [hred]
        exact ih (0, cond) (by simp)

/-- The fused `jcc_target` is never the fall-through unless it is 0:
either the fusion fired (then it equals `jmp_call_target`, which the
fusion guard `is_jmp_call` makes different from the fall-through), or
it survived the scan corrections, which exclude the remaining case. -/
theorem fusedJccOf_ne_fallThrough (b : IRSB) (block_start : Nat)
    (h : fusedJccOf b block_start ≠ 0) :
    fusedJccOf b block_start ≠ fallThroughOf b := by
  have hscan : (exitScanOf b block_start).1 ≠ 0 →
      (exitScanOf b block_start).2 = true ∧
        ¬((exitScanOf b block_start).1 = jmpCallTargetOf b ∧
            fallThroughOf b = (exitScanOf b block_start).1) ∧
        ¬(block_start < (exitScanOf b block_start).1 ∧
            (exitScanOf b block_start).1 ≤ lastAddrOf b) :=
    scanExits_sound block_start (lastAddrOf b) (fallThroughOf b)
      (jmpCallTargetOf b) b.stmts.reverse (0, false) (by simp)
  by_cases hfuse : (exitScanOf b block_start).2 = true ∧
      fallThroughOf b ≠ jmpCallTargetOf b ∧
      (exitScanOf b block_start).1 = fallThroughOf b
  · have hf : fusedJccOf b block_start = jmpCallTargetOf b := by
      simp only [fusedJccOf]
      rw [if_pos hfuse]
    rw [hf]
    exact fun heq => hfuse.2.1 heq.symm
  · have hf : fusedJccOf b block_start = (exitScanOf b block_start).1 := by
      simp only [fusedJccOf]
      rw [if_neg hfuse]
    rw [hf] at h ⊢
    intro heq
    obtain ⟨hcond, hdeg, _⟩ := hscan h
    have hftjct : fallThroughOf b = jmpCallTargetOf b := by
      by_contra hne
      exact hfuse ⟨hcond, hne, heq⟩
    exact hdeg ⟨heq.trans hftjct, heq.symm⟩

/-- C8 (confirmed): a terminator classified `Jcc` never has its taken
target equal to its fall-through successor unless both are 0 (in
fact the taken target of a `Jcc` is always nonzero and distinct from
the fall-through). -/
theorem C8_jcc_distinct (b : IRSB) (block_start : Nat)
    (h : (get_terminator b block_start).type = TerminatorType.jcc) :
    (get_terminator b block_start).target ≠
      (get_terminator b block_start).fall_through ∨
    ((get_terminator b block_start).target = 0 ∧
      (get_terminator b block_start).fall_through = 0) := by
  rcases b with ⟨st, nx, jk⟩
  cases jk
  case boring =>
    by_cases hz : fusedJccOf ⟨st, nx, IRJumpKind.boring⟩ block_start = 0
    · exfalso
      simp only [get_terminator] at h
      rw [if_neg (not_not_intro hz)] at h
      split_ifs at h
    · left
      have hne := fusedJccOf_ne_fallThrough ⟨st, nx, IRJumpKind.boring⟩
        block_start hz
      simp only [get_terminator]
      rw [if_pos hz]
      simpa using hne
  case call =>
    exfalso
    simp only [get_terminator] at h
    split_ifs at h
  case ret => simp [get_terminator] at h
  case noDecode => simp [get_terminator] at h
  case otherJk => simp [get_terminator] at h

/-- A block with jump-kind `Boring` whose `Ist_Exit` destination
equals the fall-through while the `next` expression is not a constant
(scenario of claim C1's second half). -/
def unfusedExitBlock : IRSB :=
  ⟨[IRStmt.imark 0x100 0x10, IRStmt.exit 0x110], IRExpr.nonconst,
    IRJumpKind.boring⟩

/-- C1 (counterexample): for a `Boring` block whose Exit destination
`0x110` equals the fall-through but whose `next` expression carries no
constant target (`jmp_call_target = 0`), the classifier does NOT
return `Jcc` with the Exit's destination — the fusion fires anyway
(its guard is `fall_through != jmp_call_target`, not "a constant
target is present"), zeroes `jcc_target`, and the block is classified
`Unresolved`. -/
theorem C1_counterexample :
    get_terminator unfusedExitBlock 0x100 =
      ⟨TerminatorType.unresolved, 0, 0, false⟩ ∧
    (get_terminator unfusedExitBlock 0x100).type ≠ TerminatorType.jcc := by
  constructor <;> decide

/-- C1 (amended): the fusion step re-assigns
`jcc_target := jmp_call_target` exactly when an Exit was seen
(`is_conditional`), the fall-through differs from `jmp_call_target`
(the code's `is_jmp_call`), and `jcc_target` equals the fall-through —
a nonzero constant target is not required; consequently, a `Boring`
block whose surviving Exit destination equals the nonzero fall-through
while `next` carries no constant (and whose last mark address is
nonzero) is classified `Unresolved` with target and fall-through 0,
not `Jcc`. -/
theorem C1_amended_fusion (b : IRSB) (block_start : Nat)
    (hk : b.jumpkind = IRJumpKind.boring)
    (hnext : jmpCallTargetOf b = 0)
    (hcond : (exitScanOf b block_start).2 = true)
    (hjcc : (exitScanOf b block_start).1 = fallThroughOf b)
    (hft : fallThroughOf b ≠ 0)
    (hla : lastAddrOf b ≠ 0) :
    get_terminator b block_start =
      ⟨TerminatorType.unresolved, 0, 0, false⟩ := by
  have hfused : fusedJccOf b block_start = 0 := by
    simp only [fusedJccOf]
    rw [if_pos ⟨hcond, by rw [hnext]; exact hft, hjcc⟩]
    exact hnext
  rcases b with ⟨st, nx, jk⟩
  simp only [] at hk
  subst hk
  simp only [get_terminator]
  rw [if_neg (not_not_intro hfused)]
  rw [if_neg (by rw [hnext]; exact fun hx => hla hx.symm)]
  rw [if_neg (by rw [hnext]; exact fun hx => hft hx.symm)]
  rw [if_neg (not_not_intro hnext)]

/-- C1 (witness for the amended theorem): the concrete counterexample
block satisfies all hypotheses and is classified `Unresolved`. -/
theorem C1_amended_fusion_witness :
    unfusedExitBlock.jumpkind = IRJumpKind.boring ∧
    jmpCallTargetOf unfusedExitBlock = 0 ∧
    (exitScanOf unfusedExitBlock 0x100).2 = true ∧
    (exitScanOf unfusedExitBlock 0x100).1 = fallThroughOf unfusedExitBlock ∧
    fallThroughOf unfusedExitBlock ≠ 0 ∧
    lastAddrOf unfusedExitBlock ≠ 0 ∧
    get_terminator unfusedExitBlock 0x100 =
      ⟨TerminatorType.unresolved, 0, 0, false⟩ :=
  ⟨by decide, by decide, by decide, by decide, by decide, by decide,
    C1_amended_fusion unfusedExitBlock 0x100 (by decide) (by decide)
      (by decide) (by decide) (by decide) (by decide)⟩

/-- The conditional-jump block of spec scenario 2: two instruction
marks, a final Exit to `0x400300`, constant `next` equal to the
fall-through `0x400210`, jump-kind `Boring`. -/
def jccExampleBlock : IRSB :=
  ⟨[IRStmt.imark 0x400200 8, IRStmt.imark 0x400208 8, IRStmt.exit 0x400300],
    IRExpr.const ⟨IRConstTag.ico_u64, 0x400210⟩, IRJumpKind.boring⟩

/-- C8 (witness): scenario 2 produces a `Jcc` terminator, and its
target and fall-through differ. -/
theorem C8_jcc_distinct_witness :
    (get_terminator jccExampleBlock 0x400200).type = TerminatorType.jcc ∧
    ((get_terminator jccExampleBlock 0x400200).target ≠
        (get_terminator jccExampleBlock 0x400200).fall_through ∨
      ((get_terminator jccExampleBlock 0x400200).target = 0 ∧
        (get_terminator jccExampleBlock 0x400200).fall_through = 0)) :=
  ⟨by decide, C8_jcc_distinct jccExampleBlock 0x400200 (by decide)⟩

/-! ### Frame lemmas for the block processor -/

theorem finalize_block_fst_seen (nonret : List Nat) (s : TState) (f : Function)
    (block : BlockDescriptor) (bp : IRSB) :
    (finalize_block nonret s f block bp).1.seen = s.seen := rfl

theorem finalize_block_fst_functions (nonret : List Nat) (s : TState)
    (f : Function) (block : BlockDescriptor) (bp : IRSB) :
    (finalize_block nonret s f block bp).1.functions = s.functions := rfl

theorem finalize_block_fst_blocks (nonret : List Nat) (s : TState)
    (f : Function) (block : BlockDescriptor) (bp : IRSB) :
    (finalize_block nonret s f block bp).1.blocks =
      insertAssoc block.block_start bp s.blocks := rfl

theorem finalize_block_snd_entry (nonret : List Nat) (s : TState)
    (f : Function) (block : BlockDescriptor) (bp : IRSB) :
    (finalize_block nonret s f block bp).2.entry = f.entry := rfl

theorem finalize_block_snd_blocks (nonret : List Nat) (s : TState)
    (f : Function) (block : BlockDescriptor) (bp : IRSB) :
    (finalize_block nonret s f block bp).2.blocks =
      insertAssoc block.block_start
        ⟨block.block_start, bp,
          promote_noreturn nonret (get_terminator bp block.block_start)⟩
        f.blocks := rfl

/-- State evolution frame of `process_block`: the seen set only grows,
`_functions` is untouched, the function's entry is untouched, the
`_blocks` bindings of already-seen addresses are untouched, and no
block is ever attached at an already-seen address. -/
theorem process_block_frame (vex : Vex) (nonret : List Nat) :
    ∀ (fuel : Nat) (s : TState) (f : Function) (block : BlockDescriptor)
      (s' : TState) (f' : Function) (r : Bool),
      process_block vex nonret fuel s f block = some (s', f', r) →
      (∀ x, x ∈ s.seen → x ∈ s'.seen) ∧
      s'.functions = s.functions ∧
      f'.entry = f.entry ∧
      (∀ x, x ∈ s.seen → lookupAssoc x s'.blocks = lookupAssoc x s.blocks) ∧
      (∀ a, a ∈ s.seen → lookupAssoc a f.blocks = none →
        lookupAssoc a f'.blocks = none) := by
  intro fuel
  induction fuel with
  | zero =>
    intro s f block s' f' r h
    simp [process_block] at h
  | succ fuel ih =>
    intro s f block s' f' r h
    simp only [process_block] at h
    by_cases h1 : block.block_start = block.block_end
    · rw [if_pos h1] at h
      simp only [Option.some.injEq, Prod.mk.injEq] at h
      obtain ⟨rfl, rfl, rfl⟩ := h
      exact ⟨fun x hx => hx, rfl, rfl, fun x _ => rfl, fun a _ hn => hn⟩
    · rw [if_neg h1] at h
      by_cases h2 : block.block_start ∈ s.seen
      · rw [if_pos h2] at h
        simp only [Option.some.injEq, Prod.mk.injEq] at h
        obtain ⟨rfl, rfl, rfl⟩ := h
        exact ⟨fun x hx => hx, rfl, rfl, fun x _ => rfl, fun a _ hn => hn⟩
      · rw [if_neg h2] at h
        have hxne : ∀ x, x ∈ s.seen → x ≠ block.block_start :=
          fun x hx heq => h2 (heq ▸ hx)
        by_cases h3 : countIMarks
            (vex block.block_start block.instruction_count).1.stmts <
            block.instruction_count
        · rw [if_pos h3] at h
          cases hrec : process_block vex nonret fuel
              { s with seen := block.block_start :: s.seen } f
              ⟨(vex block.block_start block.instruction_count).2,
                block.block_end,
                block.instruction_count -
                  countIMarks
                    (vex block.block_start block.instruction_count).1.stmts⟩
            with
          | none => rw [hrec] at h; simp at h
          | some trip =>
            rcases trip with ⟨s2, f2, r2⟩
            rw [hrec] at h
            simp only [Option.some.injEq, Prod.mk.injEq] at h
            obtain ⟨rfl, rfl, rfl⟩ := h
            obtain ⟨hseen, hfus, hent, hblk, hfbk⟩ :=
              ih _ _ _ _ _ _ hrec
            refine ⟨?_, ?_, ?_, ?_, ?_⟩
            · intro x hx
              rw [finalize_block_fst_seen]
              exact hseen x (List.mem_cons_of_mem _ hx)
            · rw [finalize_block_fst_functions]
              exact hfus
            · rw [finalize_block_snd_entry]
              exact hent
            · intro x hx
              rw [finalize_block_fst_blocks,
                lookupAssoc_insertAssoc_ne x block.block_start _ _ (hxne x hx)]
              exact hblk x (List.mem_cons_of_mem _ hx)
            · intro a ha hn
              rw [finalize_block_snd_blocks,
                lookupAssoc_insertAssoc_ne a block.block_start _ _ (hxne a ha)]
              exact hfbk a (List.mem_cons_of_mem _ ha) hn
        · rw [if_neg h3] at h
          simp only [Option.some.injEq, Prod.mk.injEq] at h
          obtain ⟨rfl, rfl, rfl⟩ := h
          refine ⟨?_, ?_, ?_, ?_, ?_⟩
          · intro x hx
            rw [finalize_block_fst_seen]
            exact List.mem_cons_of_mem _ hx
          · rw [finalize_block_fst_functions]
          · rw [finalize_block_snd_entry]
          · intro x hx
            rw [finalize_block_fst_blocks,
              lookupAssoc_insertAssoc_ne x block.block_start _ _ (hxne x hx)]
          · intro a ha hn
            rw [finalize_block_snd_blocks,
              lookupAssoc_insertAssoc_ne a block.block_start _ _ (hxne a ha)]
            exact hn

/-! ### Tail-jump detection, characterized -/

theorem tail_update_type (blocks : List (Nat × Block)) (t0 : Terminator) :
    (tail_update blocks t0).type = t0.type := by
  rcases t0 with ⟨ty, tg, ft, tl⟩
  cases ty <;> rfl

theorem tail_update_target (blocks : List (Nat × Block)) (t0 : Terminator) :
    (tail_update blocks t0).target = t0.target := by
  rcases t0 with ⟨ty, tg, ft, tl⟩
  cases ty <;> rfl

theorem tail_update_is_tail (blocks : List (Nat × Block)) (t0 : Terminator) :
    ((tail_update blocks t0).is_tail = true ↔
      (t0.type = TerminatorType.jump ∧
        ∀ kv ∈ blocks, kv.2.address ≠ t0.target)) := by
  rcases t0 with ⟨ty, tg, ft, tl⟩
  cases ty <;> simp [tail_update, List.any_eq_true]

theorem Function.finalize_blocks (f : Function) :
    (Function.finalize f).blocks = f.blocks := rfl

theorem Function.finalize_entry (f : Function) :
    (Function.finalize f).entry = f.entry := rfl

theorem Function.finalize_finalized (f : Function) :
    (Function.finalize f).finalized = true := rfl

theorem detect_tail_jumps_entry (f : Function) :
    (detect_tail_jumps f).entry = f.entry := rfl

/-- After `detect_tail_jumps`, a block's `is_tail` holds exactly when
its terminator is a `Jump` whose target is the address of no block of
the function. -/
theorem detect_tail_jumps_spec (f0 : Function) :
    ∀ kv, kv ∈ (detect_tail_jumps f0).blocks →
      (kv.2.terminator.is_tail = true ↔
        (kv.2.terminator.type = TerminatorType.jump ∧
          ∀ kv', kv' ∈ (detect_tail_jumps f0).blocks →
            kv'.2.address ≠ kv.2.terminator.target)) := by
  intro kv hkv
  simp only [detect_tail_jumps, List.mem_map] at hkv
  obtain ⟨kv0, hkv0, rfl⟩ := hkv
  show (tail_update f0.blocks kv0.2.terminator).is_tail = true ↔ _
  rw [tail_update_is_tail, tail_update_type, tail_update_target]
  apply and_congr_right
  intro _
  constructor
  · intro hall kv' hkv'
    simp only [detect_tail_jumps, List.mem_map] at hkv'
    obtain ⟨kv1, hkv1, rfl⟩ := hkv'
    exact hall kv1 hkv1
  · intro hall kv1 hkv1
    have hmem : (kv1.1,
        { kv1.2 with terminator := tail_update f0.blocks kv1.2.terminator }) ∈
          (detect_tail_jumps f0).blocks := by
      simp only [detect_tail_jumps, List.mem_map]
      exact ⟨kv1, hkv1, rfl⟩
    exact hall (kv1.1,
      { kv1.2 with terminator := tail_update f0.blocks kv1.2.terminator }) hmem

/-! ### The function translator, characterized -/

theorem translate_blocks_result_shape (vex : Vex) (nonret : List Nat)
    (fuel address : Nat) :
    ∀ (descs : List BlockDescriptor) (s : TState) (f : Function) (s' : TState)
      (g : Function),
      translate_blocks vex nonret fuel address s f descs = some (s', some g) →
      ∃ f0, g = Function.finalize (detect_tail_jumps f0) := by
  intro descs
  induction descs with
  | nil =>
    intro s f s' g h
    simp only [translate_blocks, Option.some.injEq, Prod.mk.injEq] at h
    exact ⟨f, h.2.symm⟩
  | cons d rest ih =>
    intro s f s' g h
    simp only [translate_blocks] at h
    cases hrec : process_block vex nonret fuel s f d with
    | none => rw [hrec] at h; simp at h
    | some trip =>
      rcases trip with ⟨s2, f2, r2⟩
      rw [hrec] at h
      cases r2 with
      | true => exact ih s2 f2 s' g (by simpa using h)
      | false => simp at h

theorem translate_blocks_all_or_nothing (vex : Vex) (nonret : List Nat)
    (fuel address : Nat) :
    ∀ (descs : List BlockDescriptor) (s : TState) (f : Function) (s' : TState)
      (r : Option Function),
      f.entry = address →
      translate_blocks vex nonret fuel address s f descs = some (s', r) →
      (∃ g, r = some g ∧ lookupAssoc address s'.functions = some g ∧
        g.finalized = true ∧ g.entry = address) ∨
      (r = none ∧ lookupAssoc address s'.functions = none) := by
  intro descs
  induction descs with
  | nil =>
    intro s f s' r hent h
    simp only [translate_blocks, Option.some.injEq, Prod.mk.injEq] at h
    obtain ⟨hs, hr⟩ := h
    left
    refine ⟨Function.finalize (detect_tail_jumps f), hr.symm, ?_,
      Function.finalize_finalized _, ?_⟩
    · rw [← hs]
      exact lookupAssoc_insertAssoc_self address _ s.functions
    · rw [Function.finalize_entry, detect_tail_jumps_entry]
      exact hent
  | cons d rest ih =>
    intro s f s' r hent h
    simp only [translate_blocks] at h
    cases hrec : process_block vex nonret fuel s f d with
    | none => rw [hrec] at h; simp at h
    | some trip =>
      rcases trip with ⟨s2, f2, r2⟩
      rw [hrec] at h
      obtain ⟨_, _, hent2, _, _⟩ :=
        process_block_frame vex nonret fuel s f d s2 f2 r2 hrec
      cases r2 with
      | true =>
        exact ih s2 f2 s' r (hent2.trans hent) (by simpa using h)
      | false =>
        simp only [Bool.false_eq_true, if_false, Option.some.injEq,
          Prod.mk.injEq] at h
        obtain ⟨hs, hr⟩ := h
        right
        refine ⟨hr.symm, ?_⟩
        rw [← hs]
        exact lookupAssoc_eraseAssoc_self address s2.functions

theorem translate_blocks_frame (vex : Vex) (nonret : List Nat)
    (fuel address : Nat) :
    ∀ (descs : List BlockDescriptor) (s : TState) (f : Function) (s' : TState)
      (r : Option Function),
      translate_blocks vex nonret fuel address s f descs = some (s', r) →
      (∀ x, x ∈ s.seen → x ∈ s'.seen) ∧
      (∀ x, x ∈ s.seen → lookupAssoc x s'.blocks = lookupAssoc x s.blocks) ∧
      (∀ a, a ∈ s.seen → lookupAssoc a f.blocks = none →
        ∀ g, r = some g → lookupAssoc a g.blocks = none) := by
  intro descs
  induction descs with
  | nil =>
    intro s f s' r h
    simp only [translate_blocks, Option.some.injEq, Prod.mk.injEq] at h
    obtain ⟨hs, hr⟩ := h
    refine ⟨?_, ?_, ?_⟩
    · intro x hx; rw [← hs]; exact hx
    · intro x hx; rw [← hs]
    · intro a ha hn g hg
      rw [← hr] at hg
      simp only [Option.some.injEq] at hg
      subst hg
      rw [Function.finalize_blocks]
      simp only [detect_tail_jumps]
      exact lookupAssoc_map_none a _ f.blocks hn
  | cons d rest ih =>
    intro s f s' r h
    simp only [translate_blocks] at h
    cases hrec : process_block vex nonret fuel s f d with
    | none => rw [hrec] at h; simp at h
    | some trip =>
      rcases trip with ⟨s2, f2, r2⟩
      rw [hrec] at h
      obtain ⟨hseen, _, _, hblk, hfbk⟩ :=
        process_block_frame vex nonret fuel s f d s2 f2 r2 hrec
      cases r2 with
      | true =>
        obtain ⟨hseen2, hblk2, hfbk2⟩ := ih s2 f2 s' r (by simpa using h)
        refine ⟨?_, ?_, ?_⟩
        · intro x hx; exact hseen2 x (hseen x hx)
        · intro x hx; rw [hblk2 x (hseen x hx)]; exact hblk x hx
        · intro a ha hn g hg
          exact hfbk2 a (hseen a ha) (hfbk a ha hn) g hg
      | false =>
        simp only [Bool.false_eq_true, if_false, Option.some.injEq,
          Prod.mk.injEq] at h
        obtain ⟨hs, hr⟩ := h
        refine ⟨?_, ?_, ?_⟩
        · intro x hx; rw [← hs]; exact hseen x hx
        · intro x hx; rw [← hs]; exact hblk x hx
        · intro a ha hn g hg
          rw [← hr] at hg
          simp at hg

/-- C3 (confirmed): after a successful `translate_function`, a block's
terminator has `is_tail = true` exactly when its type is `Jump` and
its target is not the address of any block of the function; in
particular every terminator of any other type has `is_tail = false`. -/
theorem C3_tail_iff (vex : Vex) (nonret : List Nat) (fuel : Nat) (s : TState)
    (address : Nat) (descs : List BlockDescriptor) (s' : TState) (g : Function)
    (h : translate_function vex nonret fuel s address descs =
      some (s', some g)) :
    ∀ kv, kv ∈ g.blocks →
      (kv.2.terminator.is_tail = true ↔
        (kv.2.terminator.type = TerminatorType.jump ∧
          ∀ kv', kv' ∈ g.blocks → kv'.2.address ≠ kv.2.terminator.target)) := by
  simp only [translate_function] at h
  obtain ⟨f0, rfl⟩ :=
    translate_blocks_result_shape vex nonret fuel address descs _ _ s' g h
  intro kv hkv
  rw [Function.finalize_blocks] at hkv ⊢
  exact detect_tail_jumps_spec f0 kv hkv

/-- The single-return-block function of spec scenario 1, used as a
concrete successful translation. -/
def singleRetIRSB : IRSB :=
  ⟨[IRStmt.imark 0x400100 0x10], IRExpr.nonconst, IRJumpKind.ret⟩

/-- A lifter oracle that always produces `singleRetIRSB`. -/
def singleRetVex : Vex := fun _ _ => (singleRetIRSB, 0x400110)

/-- The function produced by translating scenario 1. -/
def singleRetFun : Function :=
  ⟨0x400100,
    [(0x400100,
      ⟨0x400100, singleRetIRSB, ⟨TerminatorType.ret, 0, 0, false⟩⟩)],
    true⟩

/-- The registry state after translating scenario 1. -/
def singleRetState : TState :=
  ⟨[(0x400100, singleRetFun)], [(0x400100, singleRetIRSB)], [0x400100]⟩

/-- C3 (witness): the scenario-1 translation succeeds and its one
`Return` block satisfies the tail-flag characterization. -/
theorem C3_tail_iff_witness :
    (translate_function singleRetVex [] 1 ⟨[], [], []⟩ 0x400100
        [⟨0x400100, 0x400110, 1⟩] = some (singleRetState, some singleRetFun)) ∧
    ∀ kv, kv ∈ singleRetFun.blocks →
      (kv.2.terminator.is_tail = true ↔
        (kv.2.terminator.type = TerminatorType.jump ∧
          ∀ kv', kv' ∈ singleRetFun.blocks →
            kv'.2.address ≠ kv.2.terminator.target)) :=
  ⟨by decide,
    C3_tail_iff singleRetVex [] 1 ⟨[], [], []⟩ 0x400100
      [⟨0x400100, 0x400110, 1⟩] singleRetState singleRetFun (by decide)⟩

/-- C7 (confirmed): `translate_function` either returns a handle to a
finalized `Function` registered at the entry address, or — when a
`process_block` invocation reports failure — removes the entry from
the registry and returns a null handle; at return no partially built
`Function` sits in the registry at that address. -/
theorem C7_all_or_nothing (vex : Vex) (nonret : List Nat) (fuel : Nat)
    (s : TState) (address : Nat) (descs : List BlockDescriptor) (s' : TState)
    (r : Option Function)
    (h : translate_function vex nonret fuel s address descs = some (s', r)) :
    (∃ g, r = some g ∧ lookupAssoc address s'.functions = some g ∧
      g.finalized = true ∧ g.entry = address) ∨
    (r = none ∧ lookupAssoc address s'.functions = none) := by
  simp only [translate_function] at h
  exact translate_blocks_all_or_nothing vex nonret fuel address descs _ _ s' r
    rfl h

/-- The empty finalized function registered by translating an
empty-catalog entry at `0x10`. -/
def emptyCatalogFun : Function := ⟨0x10, [], true⟩

/-- C7 (witness): translating an entry with an empty descriptor list
registers a finalized empty function and returns it. -/
theorem C7_all_or_nothing_witness :
    (∃ g, (some emptyCatalogFun : Option Function) = some g ∧
      lookupAssoc 0x10 (TState.mk [(0x10, emptyCatalogFun)] [] []).functions =
        some g ∧
      g.finalized = true ∧ g.entry = 0x10) ∨
    ((some emptyCatalogFun : Option Function) = none ∧
      lookupAssoc 0x10 (TState.mk [(0x10, emptyCatalogFun)] [] []).functions =
        none) :=
  C7_all_or_nothing singleRetVex [] 0 ⟨[], [], []⟩ 0x10 []
    ⟨[(0x10, emptyCatalogFun)], [], []⟩ (some emptyCatalogFun) (by decide)

/-- C10 (confirmed): across any completed `translate_function` call —
in particular one that discards its `Function` — the entries of
`_seen_blocks` and `_blocks` persist, and a (re-)translation started
with an address already in `_seen_blocks` yields a function with no
block at that address (the descriptor is skipped on the memo hit). -/
theorem C10_frame (vex : Vex) (nonret : List Nat) (fuel : Nat) (s : TState)
    (address : Nat) (descs : List BlockDescriptor) (s' : TState)
    (r : Option Function)
    (h : translate_function vex nonret fuel s address descs = some (s', r)) :
    (∀ x, x ∈ s.seen → x ∈ s'.seen) ∧
    (∀ x, x ∈ s.seen → lookupAssoc x s'.blocks = lookupAssoc x s.blocks) ∧
    (∀ a, a ∈ s.seen → ∀ g, r = some g → lookupAssoc a g.blocks = none) := by
  simp only [translate_function] at h
  obtain ⟨h1, h2, h3⟩ :=
    translate_blocks_frame vex nonret fuel address descs _ _ s' r h
  exact ⟨h1, h2, fun a ha g hg => h3 a ha rfl g hg⟩

/-- A registry state in which block `0x100` has already been
processed. -/
def skipSeenState : TState := ⟨[], [], [0x100]⟩

/-- The state after re-translating an entry at `0x200` whose only
descriptor starts at the already-seen `0x100`. -/
def skipSeenStateOut : TState :=
  ⟨[(0x200, Function.mk 0x200 [] true)], [], [0x100]⟩

/-- The function rebuilt by that re-translation: it has no block at
the already-seen address. -/
def skipSeenFun : Function := ⟨0x200, [], true⟩

/-- C10 (witness): with `0x100` already in `_seen_blocks`, translating
an entry whose descriptor starts there preserves the memo entries and
yields a function without a block at `0x100`. -/
theorem C10_frame_witness :
    (∀ x, x ∈ skipSeenState.seen → x ∈ skipSeenStateOut.seen) ∧
    (∀ x, x ∈ skipSeenState.seen →
      lookupAssoc x skipSeenStateOut.blocks =
        lookupAssoc x skipSeenState.blocks) ∧
    (∀ a, a ∈ skipSeenState.seen → ∀ g,
      (some skipSeenFun : Option Function) = some g →
      lookupAssoc a g.blocks = none) :=
  C10_frame singleRetVex [] 1 skipSeenState 0x200 [⟨0x100, 0x110, 1⟩]
    skipSeenStateOut (some skipSeenFun) (by decide)


/-! ### Single-step unfoldings of the block processor -/

/-- One unfolding of `process_block` on a fresh non-empty descriptor
in the under-translation case. -/
theorem process_block_under_step (vex : Vex) (nonret : List Nat) (fuel : Nat)
    (s : TState) (f : Function) (block : BlockDescriptor) (irsb1 : IRSB)
    (real_end : Nat)
    (hv : vex block.block_start block.instruction_count = (irsb1, real_end))
    (hne : block.block_start ≠ block.block_end)
    (hseen : block.block_start ∉ s.seen)
    (hunder : countIMarks irsb1.stmts < block.instruction_count) :
    process_block vex nonret (fuel + 1) s f block =
      match process_block vex nonret fuel
          { s with seen := block.block_start :: s.seen } f
          ⟨real_end, block.block_end,
            block.instruction_count - countIMarks irsb1.stmts⟩ with
      | none => none
      | some (s2, f2, r) =>
        some ((finalize_block nonret s2 f2 block irsb1).1,
          (finalize_block nonret s2 f2 block irsb1).2, true && r) := by
  simp only [process_block, hv]
  rw [if_neg hne, if_neg hseen, if_pos hunder]

/-- One unfolding of `process_block` on a fresh non-empty descriptor
in the over-translation (truncation) case. -/
theorem process_block_over_step (vex : Vex) (nonret : List Nat) (fuel : Nat)
    (s : TState) (f : Function) (block : BlockDescriptor) (irsb1 : IRSB)
    (real_end : Nat)
    (hv : vex block.block_start block.instruction_count = (irsb1, real_end))
    (hne : block.block_start ≠ block.block_end)
    (hseen : block.block_start ∉ s.seen)
    (hover : ¬ countIMarks irsb1.stmts < block.instruction_count) :
    process_block vex nonret (fuel + 1) s f block =
      some ((finalize_block nonret
          { s with seen := block.block_start :: s.seen } f block
          (truncate_block block.instruction_count irsb1)).1,
        (finalize_block nonret
          { s with seen := block.block_start :: s.seen } f block
          (truncate_block block.instruction_count irsb1)).2,
        true) := by
  simp only [process_block, hv]
  rw [if_neg hne, if_neg hseen, if_neg hover]

/-- `process_block` on an already-seen block start is an immediate
successful no-op. -/
theorem process_block_seen_hit (vex : Vex) (nonret : List Nat) (fuel : Nat)
    (s : TState) (f : Function) (block : BlockDescriptor)
    (hmem : block.block_start ∈ s.seen) :
    process_block vex nonret (fuel + 1) s f block = some (s, f, true) := by
  simp only [process_block]
  by_cases h1 : block.block_start = block.block_end
  · rw [if_pos h1]
  · rw [if_neg h1, if_pos hmem]

/-- A lifter oracle that under-translates without progress: no
instruction marks and `real_end` equal to the requested start. -/
def noProgressVex : Vex :=
  fun _ _ => (⟨[], IRExpr.nonconst, IRJumpKind.boring⟩, 0x700000)

/-- C2 (counterexample): on a non-empty unseen descriptor where the
lifter under-translates and reports `real_end = block_start`,
`process_block` terminates (already with fuel 2: the recursive call
hits the just-inserted `seen_blocks` entry) but returns `true`, not
`false` — no lift failure is signalled. -/
theorem C2_counterexample :
    (process_block noProgressVex [] 2 ⟨[], [], []⟩
        (Function.mk 0x700000 [] false)
        ⟨0x700000, 0x700010, 2⟩).map (fun x => x.2.2) = some true := by
  decide

/-- C2 (amended): with `real_end = block_start` on an unseen non-empty
descriptor and `head_instructions < instruction_count`, the recursive
call immediately hits the `seen_blocks` entry inserted for
`block_start`, so `process_block` terminates (uniformly for every fuel
of at least 2) and returns `true`, finalizing the head block with the
lifted IR as-is. -/
theorem C2_no_progress (vex : Vex) (nonret : List Nat) (s : TState)
    (f : Function) (block : BlockDescriptor) (irsb1 : IRSB)
    (hv : vex block.block_start block.instruction_count =
      (irsb1, block.block_start))
    (hne : block.block_start ≠ block.block_end)
    (hseen : block.block_start ∉ s.seen)
    (hunder : countIMarks irsb1.stmts < block.instruction_count) :
    ∃ s' f' t,
      (∀ fuel, process_block vex nonret (fuel + 2) s f block =
        some (s', f', true)) ∧
      lookupAssoc block.block_start f'.blocks =
        some ⟨block.block_start, irsb1, t⟩ := by
  refine ⟨(finalize_block nonret { s with seen := block.block_start :: s.seen }
      f block irsb1).1,
    (finalize_block nonret { s with seen := block.block_start :: s.seen }
      f block irsb1).2,
    promote_noreturn nonret (get_terminator irsb1 block.block_start),
    ?_, ?_⟩
  · intro fuel
    show process_block vex nonret ((fuel + 1) + 1) s f block = _
    rw [process_block_under_step vex nonret (fuel + 1) s f block irsb1
      block.block_start hv hne hseen hunder]
    rw [process_block_seen_hit vex nonret fuel
      { s with seen := block.block_start :: s.seen } f
      ⟨block.block_start, block.block_end,
        block.instruction_count - countIMarks irsb1.stmts⟩
      (List.mem_cons_self _ _)]
    rfl
  · rw [finalize_block_snd_blocks]
    exact lookupAssoc_insertAssoc_self _ _ _

/-- C2 (witness for the amended theorem): the no-progress oracle on
descriptor `(0x700000, 0x700010, 2)` satisfies the hypotheses, and the
run returns `true` with the head block finalized. -/
theorem C2_no_progress_witness :
    (noProgressVex 0x700000 2 =
      (⟨[], IRExpr.nonconst, IRJumpKind.boring⟩, 0x700000)) ∧
    ∃ s' f' t,
      (∀ fuel, process_block noProgressVex [] (fuel + 2) ⟨[], [], []⟩
          (Function.mk 0x700000 [] false) ⟨0x700000, 0x700010, 2⟩ =
        some (s', f', true)) ∧
      lookupAssoc 0x700000 f'.blocks =
        some ⟨0x700000, ⟨[], IRExpr.nonconst, IRJumpKind.boring⟩, t⟩ :=
  ⟨by decide,
    C2_no_progress noProgressVex [] ⟨[], [], []⟩
      (Function.mk 0x700000 [] false) ⟨0x700000, 0x700010, 2⟩
      ⟨[], IRExpr.nonconst, IRJumpKind.boring⟩
      (by decide) (by decide) (by decide) (by decide)⟩

/-- C5 (confirmed): on under-translation, `process_block` recursively
processes the descriptor `(real_end, block_end, instruction_count -
head_instructions)` before finalizing the head block with its IR
unmodified, returns the conjunction of the outcomes (`true` here), and
the function ends up containing both the head block at `block_start`
and the tail block at `real_end` (spec scenario 6). -/
theorem C5_split (vex : Vex) (nonret : List Nat) (s : TState) (f : Function)
    (block : BlockDescriptor) (irsb1 : IRSB) (real_end : Nat)
    (irsb2 : IRSB) (re2 : Nat)
    (hv : vex block.block_start block.instruction_count = (irsb1, real_end))
    (hne : block.block_start ≠ block.block_end)
    (hseen : block.block_start ∉ s.seen)
    (hunder : countIMarks irsb1.stmts < block.instruction_count)
    (hre1 : real_end ∉ s.seen)
    (hre2 : real_end ≠ block.block_start)
    (hre3 : real_end ≠ block.block_end)
    (hv2 : vex real_end (block.instruction_count - countIMarks irsb1.stmts) =
      (irsb2, re2))
    (hover : ¬ countIMarks irsb2.stmts <
      block.instruction_count - countIMarks irsb1.stmts) :
    ∃ s' f' t1 t2,
      process_block vex nonret 2 s f block = some (s', f', true) ∧
      lookupAssoc block.block_start f'.blocks =
        some ⟨block.block_start, irsb1, t1⟩ ∧
      lookupAssoc real_end f'.blocks =
        some ⟨real_end,
          truncate_block
            (block.instruction_count - countIMarks irsb1.stmts) irsb2,
          t2⟩ ∧
      block.block_start ∈ s'.seen ∧ real_end ∈ s'.seen := by
  have hmem1 : real_end ∉
      ({ s with seen := block.block_start :: s.seen } : TState).seen := by
    simp only [List.mem_cons]
    exact fun hc => hc.elim hre2 hre1
  have hstep2 := process_block_over_step vex nonret 0
    { s with seen := block.block_start :: s.seen } f
    ⟨real_end, block.block_end,
      block.instruction_count - countIMarks irsb1.stmts⟩ irsb2 re2
    hv2 hre3 hmem1 hover
  have hrun : process_block vex nonret 2 s f block =
      some ((finalize_block nonret
          (finalize_block nonret
            { s with seen := real_end :: block.block_start :: s.seen } f
            ⟨real_end, block.block_end,
              block.instruction_count - countIMarks irsb1.stmts⟩
            (truncate_block
              (block.instruction_count - countIMarks irsb1.stmts) irsb2)).1
          (finalize_block nonret
            { s with seen := real_end :: block.block_start :: s.seen } f
            ⟨real_end, block.block_end,
              block.instruction_count - countIMarks irsb1.stmts⟩
            (truncate_block
              (block.instruction_count - countIMarks irsb1.stmts) irsb2)).2
          block irsb1).1,
        (finalize_block nonret
          (finalize_block nonret
            { s with seen := real_end :: block.block_start :: s.seen } f
            ⟨real_end, block.block_end,
              block.instruction_count - countIMarks irsb1.stmts⟩
            (truncate_block
              (block.instruction_count - countIMarks irsb1.stmts) irsb2)).1
          (finalize_block nonret
            { s with seen := real_end :: block.block_start :: s.seen } f
            ⟨real_end, block.block_end,
              block.instruction_count - countIMarks irsb1.stmts⟩
            (truncate_block
              (block.instruction_count - countIMarks irsb1.stmts) irsb2)).2
          block irsb1).2,
        true) := by
    show process_block vex nonret (1 + 1) s f block = _
    rw [process_block_under_step vex nonret 1 s f block irsb1 real_end hv hne
      hseen hunder, hstep2]
    rfl
  refine ⟨_, _,
    promote_noreturn nonret (get_terminator irsb1 block.block_start),
    promote_noreturn nonret
      (get_terminator
        (truncate_block
          (block.instruction_count - countIMarks irsb1.stmts) irsb2)
        real_end),
    hrun, ?_, ?_, ?_, ?_⟩
  · rw [finalize_block_snd_blocks]
    exact lookupAssoc_insertAssoc_self _ _ _
  · rw [finalize_block_snd_blocks,
      lookupAssoc_insertAssoc_ne real_end block.block_start _ _ hre2,
      finalize_block_snd_blocks]
    exact lookupAssoc_insertAssoc_self _ _ _
  · rw [finalize_block_fst_seen, finalize_block_fst_seen]
    exact List.mem_cons_of_mem _ (List.mem_cons_self _ _)
  · rw [finalize_block_fst_seen, finalize_block_fst_seen]
    exact List.mem_cons_self _ _

/-- The head super-block of spec scenario 6: the lifter consumed two
of four requested instructions and stopped at a call. -/
def splitHeadIRSB : IRSB :=
  ⟨[IRStmt.imark 0x600000 0x10, IRStmt.imark 0x600010 0x10],
    IRExpr.const ⟨IRConstTag.ico_u64, 0x600020⟩, IRJumpKind.call⟩

/-- The tail super-block of spec scenario 6, lifted from `0x600020`. -/
def splitTailIRSB : IRSB :=
  ⟨[IRStmt.imark 0x600020 0x10, IRStmt.imark 0x600030 0x10],
    IRExpr.nonconst, IRJumpKind.ret⟩

/-- The lifter oracle of spec scenario 6. -/
def splitVex : Vex := fun a _ =>
  if a = 0x600000 then (splitHeadIRSB, 0x600020) else (splitTailIRSB, 0x600040)

/-- C5 (witness): scenario 6 — catalog block `(0x600000, 0x600040, 4)`
split at `0x600020` — succeeds and the function contains both the head
and the tail block. -/
theorem C5_split_witness :
    ∃ s' f' t1 t2,
      process_block splitVex [] 2 ⟨[], [], []⟩ (Function.mk 0x600000 [] false)
          ⟨0x600000, 0x600040, 4⟩ = some (s', f', true) ∧
      lookupAssoc 0x600000 f'.blocks = some ⟨0x600000, splitHeadIRSB, t1⟩ ∧
      lookupAssoc 0x600020 f'.blocks =
        some ⟨0x600020, truncate_block 2 splitTailIRSB, t2⟩ ∧
      (0x600000 : Nat) ∈ s'.seen ∧ (0x600020 : Nat) ∈ s'.seen :=
  C5_split splitVex [] ⟨[], [], []⟩ (Function.mk 0x600000 [] false)
    ⟨0x600000, 0x600040, 4⟩ splitHeadIRSB 0x600020 splitTailIRSB 0x600040
    (by decide) (by decide) (by decide) (by decide) (by decide) (by decide)
    (by decide) (by decide) (by decide)

end Translator
